import Mathlib

/-!
# Verification of the agent-skills-cli marketplace pipeline

A shallow embedding, in Lean 4, of the core modules of the `agent-skills-cli`
repository (`src/core/validator.ts`, `src/core/loader.ts`,
`src/core/marketplace.ts`, `src/core/skillsmp.ts`), together with theorems
settling the specification claims about them.

Conventions used throughout the embedding:
* TypeScript optional fields (`field?: T`) become `Option T`; JavaScript
  "falsiness" of an optional string (`undefined` or `""`) is `strFalsy`.
* Filesystem and network effects are made explicit: functions take the
  relevant persisted state as an argument and return the new state; the
  outcome of a network interaction is passed in as an `Except` argument.
* Machine timestamps (`Date.now()`) are `Int` milliseconds.
* A thrown `Error` becomes `Except.error` carrying the message string.
-/

namespace AgentSkills

/-- JavaScript falsiness of an optional string value: `undefined` and the
empty string are falsy. -/
def strFalsy : Option String → Bool
  | none => true
  | some s => s = ""

/-- Does the character list `l` start with `p`? (helper for substring search). -/
def startsWithList : List Char → List Char → Bool
  | _, [] => true
  | [], _ :: _ => false
  | c :: cs, p :: ps => c = p && startsWithList cs ps

/-- Substring containment on character lists, mirroring JavaScript
`String.prototype.includes`. -/
def containsList : List Char → List Char → Bool
  | [], p => p.isEmpty
  | l@(_ :: cs), p => startsWithList l p || containsList cs p

/-- `a.includes(b)` on strings. -/
def strIncludes (s sub : String) : Bool := containsList s.data sub.data

/-- `s.toLowerCase()` (ASCII, as used by the validator on skill names). -/
def lowerStr (s : String) : String := ⟨s.data.map Char.toLower⟩

namespace Validator

/-!
## Embedding of `src/core/validator.ts`

`validateMetadata` receives a `Partial<SkillMetadata>`; the fields it never
reads (the open `metadata` map and `allowedTools`) are omitted from the
embedded record.  The optional `value` diagnostic payload on errors and
warnings (a heterogeneous `unknown` in the source) is likewise omitted: no
claim depends on it.
-/

/-- `RESERVED_WORDS` from validator.ts. -/
def RESERVED_WORDS : List String := ["anthropic", "claude", "google", "openai"]

/-- `[a-z]`. -/
def isLowerAlpha (c : Char) : Bool := 'a' ≤ c && c ≤ 'z'

/-- `[0-9]`. -/
def isDigitChar (c : Char) : Bool := '0' ≤ c && c ≤ '9'

/-- `[a-z0-9]`. -/
def isLowerAlnum (c : Char) : Bool := isLowerAlpha c || isDigitChar c

/-- Matcher for the part of `NAME_PATTERN` after the leading `[a-z]`:
the remaining characters are `[a-z0-9]` or single hyphens; `afterHyphen`
records whether the previous character was a hyphen (a hyphen must be
followed by at least one alphanumeric, and must not repeat). -/
def nameRest (afterHyphen : Bool) : List Char → Bool
  | [] => !afterHyphen
  | c :: cs =>
    if c = '-' then !afterHyphen && nameRest true cs
    else isLowerAlnum c && nameRest false cs

/-- `NAME_PATTERN = /^[a-z][a-z0-9]*(-[a-z0-9]+)*$/` as an executable
matcher on whole strings. -/
def namePattern (s : String) : Bool :=
  match s.data with
  | [] => false
  | c :: cs => isLowerAlpha c && nameRest false cs

/-- Scanner for the tail of an XML-tag match: after a `<`, look for a `>`
with at least one interleaving non-`>` character (`seen` records whether one
was consumed). -/
def scanTag (seen : Bool) : List Char → Bool
  | [] => false
  | c :: cs => if c = '>' then seen else scanTag true cs

/-- `/<[^>]+>/.test(s)`: the string contains `<`, one or more non-`>`
characters, then `>`. -/
def hasXmlTag : List Char → Bool
  | [] => false
  | c :: cs => (if c = '<' then scanTag false cs else false) || hasXmlTag cs

/-- `ValidationError` (the `value?: unknown` payload is omitted). -/
structure ValidationError where
  field : String
  message : String
deriving Repr, DecidableEq

/-- `ValidationWarning` (the `value?: unknown` payload is omitted). -/
structure ValidationWarning where
  field : String
  message : String
deriving Repr, DecidableEq

/-- `ValidationResult`. -/
structure ValidationResult where
  valid : Bool
  errors : List ValidationError
  warnings : List ValidationWarning
deriving Repr, DecidableEq

/-- `Partial<SkillMetadata>` as consumed by `validateMetadata`. -/
structure SkillMetadata where
  name : Option String := none
  description : Option String := none
  license : Option String := none
  compatibility : Option String := none
deriving Repr, DecidableEq

/-- The errors `validateMetadata` pushes for the `name` field, in source
order: required-check, then length, pattern, reserved words (in list
order), and XML tags. -/
def nameErrors (name : Option String) : List ValidationError :=
  if strFalsy name then [⟨"name", "Name is required"⟩]
  else
    let n := name.getD ""
    (if n.length > 64 then [⟨"name", "Name must be 64 characters or less"⟩] else [])
    ++ (if namePattern n then []
        else [⟨"name", "Name must contain only lowercase letters, numbers, and hyphens. Cannot start/end with hyphen or have consecutive hyphens."⟩])
    ++ (RESERVED_WORDS.filter (fun w => strIncludes (lowerStr n) w)).map
        (fun w => ⟨"name", "Name cannot contain reserved word: " ++ w⟩)
    ++ (if hasXmlTag n.data then [⟨"name", "Name cannot contain XML tags"⟩] else [])

/-- The errors `validateMetadata` pushes for the `description` field. -/
def descriptionErrors (description : Option String) : List ValidationError :=
  if strFalsy description then [⟨"description", "Description is required"⟩]
  else
    let d := description.getD ""
    (if d.length > 1024 then [⟨"description", "Description must be 1024 characters or less"⟩] else [])
    ++ (if hasXmlTag d.data then [⟨"description", "Description cannot contain XML tags"⟩] else [])

/-- The warnings `validateMetadata` pushes for the `description` field. -/
def descriptionWarnings (description : Option String) : List ValidationWarning :=
  if strFalsy description then []
  else
    let d := description.getD ""
    if d.length < 50 then
      [⟨"description", "Description is short. Consider adding more detail about when to use this skill."⟩]
    else []

/-- The errors `validateMetadata` pushes for the optional `compatibility`
field (guarded by JS truthiness of the field). -/
def compatibilityErrors (compatibility : Option String) : List ValidationError :=
  if !strFalsy compatibility && (compatibility.getD "").length > 500 then
    [⟨"compatibility", "Compatibility must be 500 characters or less"⟩]
  else []

/-- Embedding of `validateMetadata` (validator.ts lines 29-127). -/
def validateMetadata (metadata : SkillMetadata) : ValidationResult :=
  let errors := nameErrors metadata.name ++ descriptionErrors metadata.description
      ++ compatibilityErrors metadata.compatibility
  { valid := errors.isEmpty
    errors := errors
    warnings := descriptionWarnings metadata.description }

/-- The errors a validation result reports on the `name` field. -/
def nameFieldOf (r : ValidationResult) : List ValidationError :=
  r.errors.filter (fun e => e.field = "name")

/-- The reserved words that a lowercased name contains, in the order the
validator checks them. -/
def reservedHits (n : String) : List String :=
  RESERVED_WORDS.filter (fun w => strIncludes (lowerStr n) w)

end Validator

/-!
## Embedding of `src/types/marketplace.ts`
-/

/-- `MarketplaceSource`. -/
structure MarketplaceSource where
  id : String
  name : String
  owner : String
  repo : String
  branch : Option String := none
  skillsPath : Option String := none
  description : Option String := none
  verified : Option Bool := none
deriving Repr, DecidableEq

/-- `MarketplaceSkill`.  The last three fields are the extension fields the
SkillsMP client attaches (`as MarketplaceSkill & {skillId; stars; githubUrl}`
in skillsmp.ts); for skills from plain GitHub sources they are `none`. -/
structure MarketplaceSkill where
  name : String
  description : String
  path : String
  source : MarketplaceSource
  license : Option String := none
  author : Option String := none
  version : Option String := none
  tags : Option (List String) := none
  skillId : Option String := none
  stars : Option Nat := none
  githubUrl : Option String := none
deriving Repr, DecidableEq

/-- `InstalledSkill`. -/
structure InstalledSkill where
  name : String
  localPath : String
  source : Option MarketplaceSource := none
  remotePath : Option String := none
  version : Option String := none
  installedAt : String
  lastChecked : Option String := none
deriving Repr, DecidableEq

/-- `MarketplaceConfig`, the single persisted document. -/
structure MarketplaceConfig where
  sources : List MarketplaceSource
  installed : List InstalledSkill
  installDir : String
deriving Repr, DecidableEq

/-- The single built-in verified source. -/
def anthropicSource : MarketplaceSource :=
  { id := "anthropic-skills"
    name := "Anthropic Official Skills"
    owner := "anthropics"
    repo := "skills"
    branch := some "main"
    skillsPath := some "skills"
    description := some "Official Agent Skills from Anthropic"
    verified := some true }

/-- `DEFAULT_MARKETPLACES` from types/marketplace.ts. -/
def DEFAULT_MARKETPLACES : List MarketplaceSource := [anthropicSource]

/-- Removes the first element satisfying `p` from a list, returning it and
the remaining list; `none` if no element satisfies `p`.  This is the exact
effect of the JavaScript `findIndex` / `splice(index, 1)` pair used by
`removeMarketplace` and `uninstallSkill`, and the element returned is the
one `findIndex` locates (the first match). -/
def removeFirstBy {α : Type} (p : α → Bool) : List α → Option (α × List α)
  | [] => none
  | x :: xs =>
    if p x then some (x, xs)
    else
      match removeFirstBy p xs with
      | none => none
      | some (y, ys) => some (y, x :: ys)

namespace Loader

/-!
## Embedding of `src/core/loader.ts`

A skill document on disk is represented by what `gray-matter` extracts
from it: `FrontmatterData`, the optional frontmatter fields that the
loader reads (the open `metadata` map and `allowed-tools`, which no claim
touches, are omitted).  A directory's `SKILL.md` is `Option
FrontmatterData`-valued at the call sites below: `none` when the file
does not exist (`existsSync` fails), `some d` when it exists and parses
to data `d` (a document with no frontmatter block parses to the all-`none`
data, matching gray-matter's empty `data`).
-/

/-- The frontmatter fields of a skill document that the loader consumes. -/
structure FrontmatterData where
  name : Option String := none
  description : Option String := none
  license : Option String := none
  compatibility : Option String := none
deriving Repr, DecidableEq

/-- The metadata `loadSkillMetadata` returns on success: at that point
`name` and `description` are present and non-empty (JS truthy). -/
structure LoadedMetadata where
  name : String
  description : String
  license : Option String := none
  compatibility : Option String := none
deriving Repr, DecidableEq

/-- Embedding of `loadSkillMetadata` (loader.ts lines 75-98): `null` when
the file does not exist; a thrown `Error` when `name` or `description` is
falsy; the metadata otherwise. -/
def loadSkillMetadata : Option FrontmatterData → Except String (Option LoadedMetadata)
  | none => .ok none
  | some d =>
    match d.name, d.description with
    | some n, some desc =>
      if n = "" || desc = "" then
        .error "Invalid skill: missing required fields (name, description)"
      else
        .ok (some { name := n, description := desc
                    license := d.license, compatibility := d.compatibility })
    | _, _ => .error "Invalid skill: missing required fields (name, description)"

/-- `SkillRef`. -/
structure SkillRef where
  name : String
  description : String
  path : String
deriving Repr, DecidableEq

/-- One search root as `discoverSkills` observes it: either the glob over
it throws / the path does not exist (`missing`, skipped silently), or it
yields the discovered `SKILL.md` documents, each as the owning directory
path paired with the document state fed to `loadSkillMetadata`. -/
inductive SearchRoot where
  | missing
  | found (docs : List (String × Option FrontmatterData))
deriving Repr, DecidableEq

/-- Embedding of `discoverSkills` (loader.ts lines 34-70): walk the search
roots, skipping missing roots silently; for each discovered document, a
`loadSkillMetadata` failure is warned about and skipped, a `null` result
is skipped, and a loaded document contributes one `SkillRef`. -/
def discoverSkills (roots : List SearchRoot) : List SkillRef :=
  roots.foldl
    (fun skills root =>
      match root with
      | .missing => skills
      | .found docs =>
        docs.foldl
          (fun acc doc =>
            match loadSkillMetadata doc.2 with
            | .error _ => acc
            | .ok none => acc
            | .ok (some md) => acc ++ [{ name := md.name, description := md.description, path := doc.1 }])
          skills)
    []

end Loader

namespace Marketplace

/-!
## Embedding of `src/core/marketplace.ts` (manifest store)

The persisted `marketplace.json` file is modelled by `PersistedFile`:
it is absent, or present but failing to parse as a `MarketplaceConfig`
(which includes syntactically valid JSON of the wrong shape, since the
unchecked cast makes any later field access throw inside the same
`try`), or successfully parsed.  `saveConfig` writes JSON that the next
load parses back, so a save is modelled as storing `parsed config`.
-/

/-- The on-disk state of the persisted config file. -/
inductive PersistedFile where
  | absent
  | unparseable
  | parsed (config : MarketplaceConfig)
deriving Repr, DecidableEq

/-- `DEFAULT_INSTALL_DIR = join(HOME, ".antigravity", "skills")`; the HOME
prefix is environment-dependent and no claim depends on its value. -/
def DEFAULT_INSTALL_DIR : String := "~/.antigravity/skills"

/-- The deprecated source ids stripped on every load
(`const deprecatedIds = ['agentskills-examples']`). -/
def deprecatedIds : List String := ["agentskills-examples"]

/-- The default config `loadConfig` returns when the file is absent or
unreadable. -/
def defaultConfig : MarketplaceConfig :=
  { sources := DEFAULT_MARKETPLACES
    installed := []
    installDir := DEFAULT_INSTALL_DIR }

/-- Embedding of `loadConfig` (marketplace.ts lines 34-66): default on a
missing or unparseable file; otherwise re-inject missing built-in sources,
then strip deprecated ids. -/
def loadConfig : PersistedFile → MarketplaceConfig
  | .absent => defaultConfig
  | .unparseable => defaultConfig
  | .parsed config =>
    let sources := DEFAULT_MARKETPLACES.foldl
      (fun acc d => if acc.any (fun s => s.id = d.id) then acc else acc ++ [d])
      config.sources
    { config with sources := sources.filter (fun s => !(deprecatedIds.contains s.id)) }

/-- JS truthiness of the optional `verified` flag. -/
def isTruthy : Option Bool → Bool
  | some true => true
  | _ => false

/-- Embedding of `removeMarketplace` (marketplace.ts lines 94-109).  The
result pairs the persisted file after the call (unchanged on failure,
since the function throws before `saveConfig`) with the thrown or
returned outcome. -/
def removeMarketplace (pf : PersistedFile) (id : String) :
    PersistedFile × Except String Unit :=
  let config := loadConfig pf
  match removeFirstBy (fun s => s.id = id) config.sources with
  | none => (pf, .error ("Marketplace " ++ id ++ " not found"))
  | some (s, rest) =>
    if isTruthy s.verified then
      (pf, .error ("Cannot remove verified marketplace: " ++ id))
    else
      (.parsed { config with sources := rest }, .ok ())

/-!
## Embedding of `src/core/marketplace.ts` (resolver cache, updates, install)

`fetchSkillsFromSource` interleaves the in-memory cache with network
fetches.  The cache is a map from cache key to `(skills, timestamp)`;
the network interaction (the index fetch, or the directory-listing
fallback with its batched per-skill fetches) is abstracted as the
`Except`-valued `net` argument holding the skill list such a fetch
would produce now: `.error` when both strategies fail and the function
throws (in which case the cache is not written).
-/

/-- A `skillsCache` entry: `{ skills, timestamp }`. -/
structure CacheEntry where
  skills : List MarketplaceSkill
  timestamp : Int
deriving Repr, DecidableEq

/-- `CACHE_TTL = 5 * 60 * 1000` (milliseconds). -/
def CACHE_TTL : Int := 5 * 60 * 1000

/-- The cache key for a GitHub source: `` `${source.owner}/${source.repo}` ``. -/
def cacheKey (source : MarketplaceSource) : String :=
  source.owner ++ "/" ++ source.repo

/-- Result of one `fetchSkillsFromSource` call: the produced or thrown
value, the cache afterwards, and whether a network fetch was issued. -/
structure FetchOutcome where
  result : Except String (List MarketplaceSkill)
  cache : String → Option CacheEntry
  fetched : Bool

/-- Embedding of `fetchSkillsFromSource` (marketplace.ts lines 143-261):
serve a cache entry younger than `CACHE_TTL`; otherwise fetch, and on
success overwrite the cache entry with the fresh result stamped `now`. -/
def fetchSkillsFromSource (cache : String → Option CacheEntry) (now : Int)
    (source : MarketplaceSource) (net : Except Unit (List MarketplaceSkill)) :
    FetchOutcome :=
  let key := cacheKey source
  let fresh : FetchOutcome :=
    match net with
    | .error _ =>
      { result := .error ("Failed to fetch from " ++ source.owner ++ "/" ++ source.repo)
        cache := cache
        fetched := true }
    | .ok skills =>
      { result := .ok skills
        cache := fun k => if k = key then some { skills := skills, timestamp := now } else cache k
        fetched := true }
  match cache key with
  | some cached =>
    if now - cached.timestamp < CACHE_TTL then
      { result := .ok cached.skills, cache := cache, fetched := false }
    else fresh
  | none => fresh

/-- One element of the `checkUpdates` result list. -/
structure UpdateEntry where
  skill : InstalledSkill
  currentVersion : Option String
  latestVersion : Option String
  hasUpdate : Bool
deriving Repr, DecidableEq

/-- JS truthiness of the optional version string (`!!remote.version`). -/
def truthyVersion : Option String → Bool
  | none => false
  | some s => s ≠ ""

/-- Embedding of `checkUpdates` (marketplace.ts lines 441-477).  `resolve`
abstracts `fetchSkillsFromSource` (including its cache): `none` when the
fetch throws (the entry is skipped), `some skills` otherwise. -/
def checkUpdates (pf : PersistedFile)
    (resolve : MarketplaceSource → Option (List MarketplaceSkill)) :
    List UpdateEntry :=
  let config := loadConfig pf
  config.installed.foldl
    (fun updates installed =>
      match installed.source with
      | none => updates
      | some src =>
        match resolve src with
        | none => updates
        | some skills =>
          match skills.find? (fun s => s.name = installed.name) with
          | none => updates
          | some remote =>
            updates ++
              [{ skill := installed
                 currentVersion := installed.version
                 latestVersion := remote.version
                 hasUpdate := (remote.version ≠ installed.version) && truthyVersion remote.version }])
    []

/-!
### Install / uninstall

The filesystem visible to the install pipeline is modelled by `FsState`:
the persisted config file plus the set of skill directories, as a map
from directory path to its content.  `none` means no directory at that
path; `some content` a directory whose `SKILL.md` state is `content`
(`none` = no `SKILL.md` file, `some d` = a `SKILL.md` with frontmatter
`d`), which is exactly what `loadSkillMetadata` looks at.
-/

/-- The content of a promoted skill directory, as seen by
`loadSkillMetadata`: the `SKILL.md` within it, if any. -/
def DirContent := Option Loader.FrontmatterData

/-- Manifest file plus install directories. -/
structure FsState where
  manifest : PersistedFile
  dirs : String → Option DirContent

/-- `validateMetadata` applied to loaded metadata, as `installSkill` does
(`validateMetadata(metadata)`). -/
def validateLoaded (m : Loader.LoadedMetadata) : Validator.ValidationResult :=
  Validator.validateMetadata
    { name := some m.name, description := some m.description
      license := m.license, compatibility := m.compatibility }

/-- Result of one `installSkill` call: the filesystem afterwards and the
returned entry or thrown error. -/
structure InstallOutcome where
  state : FsState
  result : Except String InstalledSkill

/-- Embedding of `installSkill` (marketplace.ts lines 317-369).
`allSkills` is what `listMarketplaceSkills(sourceId)` produced;
`download` is the outcome of `downloadSkill` (`.error` when the git
sparse checkout throws — the destination directory is then never
created — and `.ok content` when the skill's files were promoted into
the install path with `SKILL.md` state `content`); `now` is
`new Date().toISOString()`.  After promotion, metadata is loaded from
the promoted copy: a load error propagates (leaving the directory); a
`null` metadata skips validation; loaded metadata failing validation
removes the directory and throws; otherwise the entry is recorded and
the config saved. -/
def installSkill (st : FsState) (skillName : String)
    (allSkills : List MarketplaceSkill)
    (download : Except Unit DirContent) (now : String) : InstallOutcome :=
  let config := loadConfig st.manifest
  match allSkills.find? (fun s => s.name = skillName) with
  | none => { state := st, result := .error ("Skill not found: " ++ skillName) }
  | some skill =>
    match config.installed.find? (fun i => i.name = skillName) with
    | some existing =>
      { state := st
        result := .error ("Skill " ++ skillName ++ " is already installed at " ++ existing.localPath) }
    | none =>
      let installPath := config.installDir ++ "/" ++ skillName
      match download with
      | .error _ => { state := st, result := .error "Download failed" }
      | .ok content =>
        let dirs1 : String → Option DirContent :=
          fun p => if p = installPath then some content else st.dirs p
        let installed : InstalledSkill :=
          { name := skillName
            localPath := installPath
            source := some skill.source
            remotePath := some skill.path
            version := skill.version
            installedAt := now }
        let recorded : InstallOutcome :=
          { state :=
              { manifest := .parsed { config with installed := config.installed ++ [installed] }
                dirs := dirs1 }
            result := .ok installed }
        match Loader.loadSkillMetadata content with
        | .error e => { state := { manifest := st.manifest, dirs := dirs1 }, result := .error e }
        | .ok none => recorded
        | .ok (some metadata) =>
          let validation := validateLoaded metadata
          if validation.valid then recorded
          else
            { state :=
                { manifest := st.manifest
                  dirs := fun p => if p = installPath then none else dirs1 p }
              result := .error ("Installed skill is invalid: " ++
                String.intercalate ", " (validation.errors.map (fun e => e.message))) }

/-- Embedding of `uninstallSkill` (marketplace.ts lines 418-436): fail
when no manifest entry carries the name; otherwise remove the recorded
directory if it exists (a no-op when already absent), drop the entry,
and persist. -/
def uninstallSkill (st : FsState) (skillName : String) :
    FsState × Except String Unit :=
  let config := loadConfig st.manifest
  match removeFirstBy (fun i => i.name = skillName) config.installed with
  | none => (st, .error ("Skill " ++ skillName ++ " is not installed via marketplace"))
  | some (installed, rest) =>
    let dirs1 : String → Option DirContent :=
      if (st.dirs installed.localPath).isSome then
        fun p => if p = installed.localPath then none else st.dirs p
      else st.dirs
    ({ manifest := .parsed { config with installed := rest }, dirs := dirs1 }, .ok ())

end Marketplace

namespace SkillsMP

/-!
## Embedding of `src/core/skillsmp.ts`

The four URL extractors are JavaScript `String.match` calls against
anchored-nowhere regexes; each is embedded as a per-position attempt
(`...At`, matching the regex at exactly that position) driven by a
leftmost scan (`scanFor`), which is the regex engine's first-match
semantics.
-/

/-- The literal `github\.com\/` prefix all four extractor regexes share. -/
def ghMarker : List Char := "github.com/".data

/-- Strip an expected literal prefix; `none` when it does not match. -/
def stripPre : List Char → List Char → Option (List Char)
  | [], l => some l
  | _ :: _, [] => none
  | p :: ps, c :: cs => if c = p then stripPre ps cs else none

/-- Consume one nonempty `[^/]+` segment, returning it and the rest
(which is empty or starts with `/`). -/
def segNonempty (l : List Char) : Option (List Char × List Char) :=
  let s := l.takeWhile (fun c => c ≠ '/')
  if s.isEmpty then none else some (s, l.dropWhile (fun c => c ≠ '/'))

/-- `/github\.com\/([^/]+)/` attempted at the head of `l`. -/
def ownerAt (l : List Char) : Option String := do
  let r ← stripPre ghMarker l
  let (o, _) ← segNonempty r
  some (String.mk o)

/-- `/github\.com\/[^/]+\/([^/]+)/` attempted at the head of `l`. -/
def repoAt (l : List Char) : Option String := do
  let r ← stripPre ghMarker l
  let (_, r1) ← segNonempty r
  let r2 ← stripPre ['/'] r1
  let (rp, _) ← segNonempty r2
  some (String.mk rp)

/-- `/github\.com\/[^/]+\/[^/]+\/tree\/([^/]+)/` attempted at the head of `l`. -/
def branchAt (l : List Char) : Option String := do
  let r ← stripPre ghMarker l
  let (_, r1) ← segNonempty r
  let r2 ← stripPre ['/'] r1
  let (_, r3) ← segNonempty r2
  let r4 ← stripPre "/tree/".data r3
  let (b, _) ← segNonempty r4
  some (String.mk b)

/-- `/github\.com\/[^/]+\/[^/]+\/tree\/[^/]+\/(.+)/` attempted at the head
of `l`; `(.+)` takes everything up to the end of the line, and must be
nonempty. -/
def pathAt (l : List Char) : Option String := do
  let r ← stripPre ghMarker l
  let (_, r1) ← segNonempty r
  let r2 ← stripPre ['/'] r1
  let (_, r3) ← segNonempty r2
  let r4 ← stripPre "/tree/".data r3
  let (_, r5) ← segNonempty r4
  let r6 ← stripPre ['/'] r5
  let rest := r6.takeWhile (fun c => c ≠ '\n')
  if rest.isEmpty then none else some (String.mk rest)

/-- Leftmost-match scan: try the per-position matcher at every suffix. -/
def scanFor (f : List Char → Option String) : List Char → Option String
  | [] => none
  | l@(_ :: cs) =>
    match f l with
    | some r => some r
    | none => scanFor f cs

/-- `extractOwner`: first capture, or `''` when the regex does not match. -/
def extractOwner (url : String) : String := (scanFor ownerAt url.data).getD ""

/-- `extractRepoName`: first capture, or `''`. -/
def extractRepoName (url : String) : String := (scanFor repoAt url.data).getD ""

/-- `extractBranch`: first capture, or `'main'`. -/
def extractBranch (url : String) : String := (scanFor branchAt url.data).getD "main"

/-- `extractGitHubPath`: first capture, or `''`. -/
def extractGitHubPath (url : String) : String := (scanFor pathAt url.data).getD ""

/-- `SKILLSMP_SOURCE`. -/
def SKILLSMP_SOURCE : MarketplaceSource :=
  { id := "skillsmp"
    name := "SkillsMP Marketplace"
    owner := "skillsmp"
    repo := "skillsmp.com"
    description := some "Browse 40,000+ agent skills from the community"
    verified := some true }

/-- One skill object of a SkillsMP API response; only the fields the
client consumes are modelled (`authorAvatar`, `forks`, `updatedAt`,
`hasMarketplace`, `path`, `branch` are never read). -/
structure SkillsMPSkill where
  id : String
  name : String
  author : String
  description : String
  githubUrl : String
  stars : Nat
deriving Repr, DecidableEq

/-- A SkillsMP API response, flattened to the fields the client consumes
(`skills`, `pagination.total`, `pagination.hasNext`). -/
structure SkillsMPResponse where
  skills : List SkillsMPSkill
  total : Nat
  hasNext : Bool
deriving Repr, DecidableEq

/-- The per-skill conversion `fetchSkillsMP` applies to API skills. -/
def convertSkill (s : SkillsMPSkill) : MarketplaceSkill :=
  { name := s.name
    description := s.description
    path := extractGitHubPath s.githubUrl
    source := { SKILLSMP_SOURCE with owner := s.author, repo := extractRepoName s.githubUrl }
    author := some s.author
    version := none
    license := none
    skillId := some s.id
    stars := some s.stars
    githubUrl := some s.githubUrl }

/-- `CACHE_TTL` of skillsmp.ts (same 5-minute constant, separate module). -/
def CACHE_TTL : Int := 5 * 60 * 1000

/-- A skillsmp.ts cache entry: `{ data, timestamp }`. -/
structure MPCacheEntry where
  data : List MarketplaceSkill
  timestamp : Int
deriving Repr, DecidableEq

/-- The options object of `fetchSkillsMP`, with its defaults. -/
structure MPQuery where
  search : String := ""
  page : Nat := 1
  limit : Nat := 50
  sortBy : String := "stars"
deriving Repr, DecidableEq

/-- `` `skillsmp:${search}:${page}:${limit}:${sortBy}` ``. -/
def mpCacheKey (q : MPQuery) : String :=
  "skillsmp:" ++ q.search ++ ":" ++ toString q.page ++ ":" ++ toString q.limit ++ ":" ++ q.sortBy

/-- The value `fetchSkillsMP` resolves with. -/
structure MPResult where
  skills : List MarketplaceSkill
  total : Nat
  hasNext : Bool
deriving Repr, DecidableEq

/-- Result of one `fetchSkillsMP` call: the resolved or thrown value, the
cache afterwards, and whether a network fetch was issued. -/
structure MPOutcome where
  result : Except String MPResult
  cache : String → Option MPCacheEntry
  fetched : Bool

/-- Embedding of `fetchSkillsMP` (skillsmp.ts lines 64-127).  `response`
is the API interaction's outcome (`.error status` for a non-ok HTTP
response).  Note the cache-hit branch resolves with `total: 0` and
`hasNext: false` rather than the cached call's pagination values. -/
def fetchSkillsMP (cache : String → Option MPCacheEntry) (now : Int)
    (q : MPQuery) (response : Except Nat SkillsMPResponse) : MPOutcome :=
  let key := mpCacheKey q
  let fresh : MPOutcome :=
    match response with
    | .error status =>
      { result := .error ("SkillsMP API error: " ++ toString status)
        cache := cache
        fetched := true }
    | .ok data =>
      let skills := data.skills.map convertSkill
      { result := .ok { skills := skills, total := data.total, hasNext := data.hasNext }
        cache := fun k => if k = key then some { data := skills, timestamp := now } else cache k
        fetched := true }
  match cache key with
  | some cached =>
    if now - cached.timestamp < CACHE_TTL then
      { result := .ok { skills := cached.data, total := 0, hasNext := false }
        cache := cache
        fetched := false }
    else fresh
  | none => fresh

/-- JavaScript `String.prototype.split` with a single-character
separator, on character lists (`"".split(sep)` is `[""]`). -/
def splitOnChar (sep : Char) : List Char → List (List Char)
  | [] => [[]]
  | c :: cs =>
    let r := splitOnChar sep cs
    if c = sep then [] :: r
    else
      match r with
      | [] => [[c]]
      | s :: rest => (c :: s) :: rest

/-- `skillPath.split('/').pop() || 'skill'`. -/
def lastSegOr (dflt : String) (s : String) : String :=
  match (splitOnChar '/' s.data).getLast? with
  | none => dflt
  | some last => if last.isEmpty then dflt else String.mk last

/-- The install path `installFromGitHubUrl` writes under:
`` `${installDir}/${skillName}` `` for the URL's last path segment. -/
def destPathOf (installDir url : String) : String :=
  installDir ++ "/" ++ lastSegOr "skill" (extractGitHubPath url)

/-- Embedding of `installFromGitHubUrl` (skillsmp.ts lines 181-214).
`fetched` is the outcome of fetching the raw `SKILL.md`
(`.error` for a non-ok response, `.ok d` for a document with
frontmatter `d`).  The function never reads or writes the persisted
marketplace config; on success it creates the destination directory and
writes the fetched `SKILL.md` there. -/
def installFromGitHubUrl (st : Marketplace.FsState) (githubUrl installDir : String)
    (fetched : Except Unit Loader.FrontmatterData) :
    Marketplace.FsState × Except String (String × String) :=
  let owner := extractOwner githubUrl
  let repo := extractRepoName githubUrl
  let skillPath := extractGitHubPath githubUrl
  if owner = "" || repo = "" || skillPath = "" then
    (st, .error ("Invalid GitHub URL: " ++ githubUrl))
  else
    let skillName := lastSegOr "skill" skillPath
    let destPath := installDir ++ "/" ++ skillName
    match fetched with
    | .error _ => (st, .error "Could not fetch SKILL.md")
    | .ok d =>
      ({ manifest := st.manifest
         dirs := fun p => if p = destPath then some (some d) else st.dirs p },
       .ok (skillName, destPath))

end SkillsMP

/-!
## Concrete fixtures

Small concrete states used to instantiate the theorems below (witnesses
and counterexamples).
-/

/-- A user-added (unverified) registered source. -/
def exSource : MarketplaceSource := { id := "s1", name := "S", owner := "o", repo := "r" }

/-- A remote candidate named `pdf` at version `1.1` in `exSource`. -/
def exSkill : MarketplaceSkill :=
  { name := "pdf", description := "d", path := "skills/pdf", source := exSource
    version := some "1.1" }

/-- A persisted config with one user source, nothing installed. -/
def exConfig : MarketplaceConfig :=
  { sources := [exSource], installed := [], installDir := "/skills" }

/-- Initial filesystem: `exConfig` persisted, no install directories. -/
def exState : Marketplace.FsState := { manifest := .parsed exConfig, dirs := fun _ => none }

/-- An installed `pdf` skill at the given version. -/
def exInstalled (v : Option String) : InstalledSkill :=
  { name := "pdf", localPath := "/skills/pdf", source := some exSource
    version := v, installedAt := "t" }

/-- A remote `pdf` candidate at the given version. -/
def exRemote (v : Option String) : MarketplaceSkill :=
  { name := "pdf", description := "d", path := "skills/pdf", source := exSource, version := v }

/-- A persisted config with `pdf` installed at the given version. -/
def exConfigInstalled (v : Option String) : MarketplaceConfig :=
  { sources := [exSource], installed := [exInstalled v], installDir := "/skills" }

/-- A sufficiently long valid description (no warnings, no errors). -/
def exDescription : String :=
  "Reads PDF files and extracts their text content for analysis."

/-!
## Helper lemmas
-/

theorem nameRest_chars {l : List Char} {c : Char} (hc : c ∈ l) :
    ∀ b, Validator.nameRest b l = true → c = '-' ∨ Validator.isLowerAlnum c = true := by
  induction l with
  | nil => cases hc
  | cons x xs ih =>
    intro b h
    simp only [Validator.nameRest] at h
    by_cases hx : x = '-'
    · rw [if_pos hx] at h
      have h2 := (Bool.and_eq_true _ _).mp h
      rcases List.mem_cons.mp hc with rfl | hmem
      · exact Or.inl hx
      · exact ih hmem true h2.2
    · rw [if_neg hx] at h
      have h2 := (Bool.and_eq_true _ _).mp h
      rcases List.mem_cons.mp hc with rfl | hmem
      · exact Or.inr h2.1
      · exact ih hmem false h2.2

theorem hasXmlTag_eq_false {l : List Char} (h : '<' ∉ l) :
    Validator.hasXmlTag l = false := by
  induction l with
  | nil => rfl
  | cons x xs ih =>
    simp only [Validator.hasXmlTag]
    have hx : ¬ (x = '<') := fun e => h (e ▸ List.mem_cons_self x xs)
    rw [if_neg hx, ih (fun m => h (List.mem_cons_of_mem x m))]
    rfl

theorem namePattern_ne_empty {n : String} (h : Validator.namePattern n = true) :
    n ≠ "" := by
  intro he
  subst he
  exact absurd h (by decide)

theorem namePattern_no_xml {n : String} (h : Validator.namePattern n = true) :
    Validator.hasXmlTag n.data = false := by
  apply hasXmlTag_eq_false
  intro hmem
  unfold Validator.namePattern at h
  cases hd : n.data with
  | nil => rw [hd] at hmem; cases hmem
  | cons c cs =>
    rw [hd] at h hmem
    have h2 := (Bool.and_eq_true _ _).mp h
    rcases List.mem_cons.mp hmem with he | hmem2
    · rw [← he] at h2
      exact absurd h2.1 (by decide)
    · rcases nameRest_chars hmem2 false h2.2 with h3 | h3
      · exact absurd h3 (by decide)
      · exact absurd h3 (by decide)

theorem nameErrors_reserved {n : String} (hpat : Validator.namePattern n = true)
    (hlen : n.length ≤ 64) :
    Validator.nameErrors (some n) =
      (Validator.reservedHits n).map
        (fun w => { field := "name", message := "Name cannot contain reserved word: " ++ w }) := by
  have hne : n ≠ "" := namePattern_ne_empty hpat
  have hxml : Validator.hasXmlTag n.data = false := namePattern_no_xml hpat
  have hlen' : ¬ (n.length > 64) := by omega
  simp [Validator.nameErrors, strFalsy, hne, hpat, hxml, hlen', Validator.reservedHits]

theorem descriptionErrors_field (d : Option String) :
    ∀ e ∈ Validator.descriptionErrors d, e.field = "description" := by
  intro e he
  simp only [Validator.descriptionErrors] at he
  by_cases h1 : strFalsy d = true
  · rw [if_pos h1] at he
    have := List.mem_singleton.mp he
    subst this
    rfl
  · rw [if_neg h1] at he
    rcases List.mem_append.mp he with h | h
    · by_cases h2 : (d.getD "").length > 1024
      · rw [if_pos h2] at h
        have := List.mem_singleton.mp h
        subst this
        rfl
      · rw [if_neg h2] at h
        cases h
    · by_cases h3 : Validator.hasXmlTag (d.getD "").data = true
      · rw [if_pos h3] at h
        have := List.mem_singleton.mp h
        subst this
        rfl
      · rw [if_neg h3] at h
        cases h

theorem filter_name_descriptionErrors (d : Option String) :
    (Validator.descriptionErrors d).filter (fun e => e.field = "name") = [] := by
  rw [List.filter_eq_nil_iff]
  intro e he
  have hf := descriptionErrors_field d e he
  simp [hf]

theorem nameFieldOf_eq_reserved {n : String} (desc : String)
    (hpat : Validator.namePattern n = true) (hlen : n.length ≤ 64) :
    Validator.nameFieldOf (Validator.validateMetadata { name := some n, description := some desc }) =
      (Validator.reservedHits n).map
        (fun w => { field := "name", message := "Name cannot contain reserved word: " ++ w }) := by
  show (Validator.nameErrors (some n) ++ Validator.descriptionErrors (some desc)
      ++ Validator.compatibilityErrors none).filter (fun e => e.field = "name") = _
  rw [List.filter_append, List.filter_append]
  rw [nameErrors_reserved hpat hlen, filter_name_descriptionErrors]
  have hcomp : (Validator.compatibilityErrors none).filter (fun e => e.field = "name") = [] := rfl
  rw [hcomp]
  rw [List.append_nil, List.append_nil]
  rw [List.filter_eq_self]
  intro e he
  rcases List.mem_map.mp he with ⟨w, _, rfl⟩
  simp

/-!
## Claim theorems
-/

/-- C2, counterexample to the claim as stated.  The name `"claude"` matches
`^[a-z][a-z0-9]*(-[a-z0-9]+)*$`, yet `validateMetadata` reports a name
error for it (the reserved-word check is independent of the pattern), so
"for every name string matching the pattern, validateMetadata reports no
error on the name field" is false.  Moreover the name `"claude-openai"`
contains a reserved word but gets two name errors, not exactly one. -/
theorem C2_counterexample :
    Validator.namePattern "claude" = true ∧
    Validator.nameFieldOf
        (Validator.validateMetadata { name := some "claude", description := some exDescription }) =
      [{ field := "name", message := "Name cannot contain reserved word: claude" }] ∧
    (Validator.nameFieldOf
        (Validator.validateMetadata { name := some "claude-openai", description := some exDescription })).length = 2 :=
  ⟨by decide, by decide, by decide⟩

/-- C2 (amended): for every name matching the pattern that also has at
most 64 characters, `validateMetadata` reports no name error when the
(lowercased) name contains no reserved word, and reports exactly one name
error, mentioning that word, when it contains exactly one reserved word. -/
theorem C2_name_validation (n desc : String)
    (hpat : Validator.namePattern n = true) (hlen : n.length ≤ 64) :
    (Validator.reservedHits n = [] →
      Validator.nameFieldOf
        (Validator.validateMetadata { name := some n, description := some desc }) = []) ∧
    (∀ w, Validator.reservedHits n = [w] →
      Validator.nameFieldOf
          (Validator.validateMetadata { name := some n, description := some desc }) =
        [{ field := "name", message := "Name cannot contain reserved word: " ++ w }]) := by
  constructor
  · intro h
    rw [nameFieldOf_eq_reserved desc hpat hlen, h]
    rfl
  · intro w h
    rw [nameFieldOf_eq_reserved desc hpat hlen, h]
    rfl

/-- C2 witness: `C2_name_validation` evaluated at the clean name
`"pdf-tools"` and at `"claude-pdf"`, which contains exactly the reserved
word `"claude"`. -/
theorem C2_name_validation_witness :
    Validator.nameFieldOf
        (Validator.validateMetadata { name := some "pdf-tools", description := some exDescription }) = [] ∧
    Validator.nameFieldOf
        (Validator.validateMetadata { name := some "claude-pdf", description := some exDescription }) =
      [{ field := "name", message := "Name cannot contain reserved word: claude" }] :=
  ⟨(C2_name_validation "pdf-tools" exDescription (by decide) (by decide)).1 (by decide),
   (C2_name_validation "claude-pdf" exDescription (by decide) (by decide)).2 "claude" (by decide)⟩

theorem loadConfig_parsed_sources (cfg : MarketplaceConfig) :
    (Marketplace.loadConfig (.parsed cfg)).sources =
      (if cfg.sources.any (fun s => s.id = anthropicSource.id) then cfg.sources
       else cfg.sources ++ [anthropicSource]).filter
        (fun s => !(Marketplace.deprecatedIds.contains s.id)) := rfl

/-- C5: for every on-disk manifest state, the loaded config contains a
source matching every built-in default by id and no source with a
deprecated id; absent and unparseable files both degrade to the default
config (built-in verified sources, empty installed list, default install
directory) rather than failing. -/
theorem C5_loadConfig_defaults (pf : Marketplace.PersistedFile) :
    (∀ d ∈ DEFAULT_MARKETPLACES, ∃ s ∈ (Marketplace.loadConfig pf).sources, s.id = d.id) ∧
    (∀ s ∈ (Marketplace.loadConfig pf).sources, Marketplace.deprecatedIds.contains s.id = false) ∧
    Marketplace.loadConfig .absent = Marketplace.defaultConfig ∧
    Marketplace.loadConfig .unparseable = Marketplace.defaultConfig := by
  refine ⟨?_, ?_, rfl, rfl⟩
  · intro d hd
    simp only [DEFAULT_MARKETPLACES, List.mem_singleton] at hd
    subst hd
    cases pf with
    | absent => exact ⟨anthropicSource, by decide, rfl⟩
    | unparseable => exact ⟨anthropicSource, by decide, rfl⟩
    | parsed cfg =>
      rw [loadConfig_parsed_sources]
      by_cases hany : cfg.sources.any (fun s => s.id = anthropicSource.id) = true
      · rw [if_pos hany]
        rcases List.any_eq_true.mp hany with ⟨x, hx, hpx⟩
        have hxid : x.id = anthropicSource.id := of_decide_eq_true hpx
        refine ⟨x, List.mem_filter.mpr ⟨hx, ?_⟩, hxid⟩
        show (!(Marketplace.deprecatedIds.contains x.id)) = true
        rw [hxid]
        decide
      · rw [if_neg hany]
        refine ⟨anthropicSource, List.mem_filter.mpr ⟨?_, by decide⟩, rfl⟩
        exact List.mem_append_right _ (by decide)
  · intro s hs
    cases pf with
    | absent =>
      have hmem : s ∈ DEFAULT_MARKETPLACES := hs
      simp only [DEFAULT_MARKETPLACES, List.mem_singleton] at hmem
      subst hmem
      decide
    | unparseable =>
      have hmem : s ∈ DEFAULT_MARKETPLACES := hs
      simp only [DEFAULT_MARKETPLACES, List.mem_singleton] at hmem
      subst hmem
      decide
    | parsed cfg =>
      rw [loadConfig_parsed_sources] at hs
      have hkeep := (List.mem_filter.mp hs).2
      simpa using hkeep

/-- C5 witness: the healing and stripping facts evaluated on the concrete
persisted config `exConfig` (which lacks the built-in source), and the
degradation equations. -/
theorem C5_loadConfig_defaults_witness :
    (∃ s ∈ (Marketplace.loadConfig (.parsed exConfig)).sources, s.id = anthropicSource.id) ∧
    Marketplace.deprecatedIds.contains exSource.id = false ∧
    Marketplace.loadConfig .absent = Marketplace.defaultConfig :=
  ⟨(C5_loadConfig_defaults (.parsed exConfig)).1 anthropicSource (by decide),
   (C5_loadConfig_defaults (.parsed exConfig)).2.1 exSource (by decide),
   (C5_loadConfig_defaults (.parsed exConfig)).2.2.1⟩

theorem removeFirstBy_eq_none {α : Type} {p : α → Bool} {l : List α}
    (h : ∀ x ∈ l, p x = false) : removeFirstBy p l = none := by
  induction l with
  | nil => rfl
  | cons x xs ih =>
    simp only [removeFirstBy]
    rw [if_neg (by simp [h x (List.mem_cons_self x xs)]),
      ih (fun y hy => h y (List.mem_cons_of_mem x hy))]

/-- C8: `removeMarketplace` fails with the not-found error when no
registered source carries the id, and with the protected-source error
when the first source carrying the id is verified; in both cases the
persisted file is returned unchanged, so the registered sources are the
same on the next load. -/
theorem C8_removeMarketplace_failures (pf : Marketplace.PersistedFile) (id : String) :
    ((∀ s ∈ (Marketplace.loadConfig pf).sources, s.id ≠ id) →
      Marketplace.removeMarketplace pf id =
        (pf, .error ("Marketplace " ++ id ++ " not found"))) ∧
    (∀ s rest,
      removeFirstBy (fun s => s.id = id) (Marketplace.loadConfig pf).sources = some (s, rest) →
      Marketplace.isTruthy s.verified = true →
      Marketplace.removeMarketplace pf id =
        (pf, .error ("Cannot remove verified marketplace: " ++ id))) := by
  constructor
  · intro h
    have hnone : removeFirstBy (fun s => s.id = id) (Marketplace.loadConfig pf).sources = none :=
      removeFirstBy_eq_none (fun x hx => by simp [h x hx])
    simp only [Marketplace.removeMarketplace]
    rw [hnone]
  · intro s rest hfind hver
    simp only [Marketplace.removeMarketplace]
    rw [hfind]
    simp only [if_pos hver]

/-- C8 witness: on the concrete config `exConfig` (after its load heals in
the verified built-in source), removing an unknown id and removing the
verified built-in both fail without touching the persisted file. -/
theorem C8_removeMarketplace_failures_witness :
    Marketplace.removeMarketplace (.parsed exConfig) "nope" =
      (.parsed exConfig, .error "Marketplace nope not found") ∧
    Marketplace.removeMarketplace (.parsed exConfig) "anthropic-skills" =
      (.parsed exConfig, .error "Cannot remove verified marketplace: anthropic-skills") :=
  ⟨(C8_removeMarketplace_failures (.parsed exConfig) "nope").1 (by decide),
   (C8_removeMarketplace_failures (.parsed exConfig) "anthropic-skills").2
     anthropicSource [exSource] (by decide) (by decide)⟩

/-- C7: discovery never fails: no roots, a missing root, and an empty
root all yield the empty list; a missing root anywhere in the search
list is skipped without affecting the rest of the scan, and a document
whose metadata fails to load is skipped without affecting the other
documents or roots. -/
theorem C7_discover_skips_failures :
    Loader.discoverSkills [] = [] ∧
    Loader.discoverSkills [.missing] = [] ∧
    Loader.discoverSkills [.found []] = [] ∧
    (∀ roots1 roots2,
      Loader.discoverSkills (roots1 ++ .missing :: roots2) =
        Loader.discoverSkills (roots1 ++ roots2)) ∧
    (∀ roots1 roots2 docs1 docs2 p doc e,
      Loader.loadSkillMetadata doc = .error e →
      Loader.discoverSkills (roots1 ++ .found (docs1 ++ (p, doc) :: docs2) :: roots2) =
        Loader.discoverSkills (roots1 ++ .found (docs1 ++ docs2) :: roots2)) := by
  refine ⟨rfl, rfl, rfl, ?_, ?_⟩
  · intro roots1 roots2
    simp only [Loader.discoverSkills, List.foldl_append, List.foldl_cons]
  · intro roots1 roots2 docs1 docs2 p doc e herr
    simp only [Loader.discoverSkills, List.foldl_append, List.foldl_cons, herr]

/-- C7 witness: the skipping equations evaluated on concrete roots: a
missing root between two found roots, and an unloadable document (empty
frontmatter) between two loadable ones. -/
theorem C7_discover_skips_failures_witness :
    Loader.discoverSkills
        [.found [("/a", some { name := some "x", description := some "y" })], .missing] =
      Loader.discoverSkills [.found [("/a", some { name := some "x", description := some "y" })]] ∧
    Loader.discoverSkills
        [.found [("/a", some { name := some "x", description := some "y" }),
                 ("/b", some {}),
                 ("/c", some { name := some "z", description := some "w" })]] =
      Loader.discoverSkills
        [.found [("/a", some { name := some "x", description := some "y" }),
                 ("/c", some { name := some "z", description := some "w" })]] :=
  ⟨C7_discover_skips_failures.2.2.2.1
      [.found [("/a", some { name := some "x", description := some "y" })]] [],
   C7_discover_skips_failures.2.2.2.2 []
      [] [("/a", some { name := some "x", description := some "y" })]
      [("/c", some { name := some "z", description := some "w" })]
      "/b" (some {}) "Invalid skill: missing required fields (name, description)" rfl⟩

/-- C3 counterexample: with `pdf` installed at version `"1.0"` and its
matching remote candidate reporting the *defined* version `""`, the
remote version differs from the installed one, yet `checkUpdates`
reports `hasUpdate = false` — the JS truthiness guard `!!remote.version`
rejects the empty string, so "defined and different" does not imply an
update flag. -/
theorem C3_counterexample :
    Marketplace.checkUpdates (.parsed (exConfigInstalled (some "1.0")))
        (fun _ => some [exRemote (some "")]) =
      [{ skill := exInstalled (some "1.0"), currentVersion := some "1.0",
         latestVersion := some "", hasUpdate := false }] ∧
    (some "" : Option String) ≠ some "1.0" ∧
    (some "" : Option String) ≠ none :=
  ⟨by decide, by decide, by decide⟩

theorem foldl_mem_invariant {α β : Type} {P : β → Prop} (step : List β → α → List β)
    (hstep : ∀ acc x e, e ∈ step acc x → e ∈ acc ∨ P e) :
    ∀ (l : List α) (acc : List β), (∀ y ∈ acc, P y) → ∀ e ∈ l.foldl step acc, P e := by
  intro l
  induction l with
  | nil =>
    intro acc hacc e he
    exact hacc e he
  | cons x xs ih =>
    intro acc hacc e he
    refine ih (step acc x) (fun y hy => ?_) e he
    rcases hstep acc x y hy with h | h
    · exact hacc y h
    · exact h

/-- C3 (amended): every entry `checkUpdates` produces has
`hasUpdate = true` exactly when the remote version it recorded is a
defined, *non-empty* string different from the installed version. -/
theorem C3_hasUpdate_iff (pf : Marketplace.PersistedFile)
    (resolve : MarketplaceSource → Option (List MarketplaceSkill)) :
    ∀ e ∈ Marketplace.checkUpdates pf resolve,
      (e.hasUpdate = true ↔
        (e.latestVersion ≠ e.currentVersion ∧ ∃ v, e.latestVersion = some v ∧ v ≠ "")) := by
  refine foldl_mem_invariant _ ?_ _ _ ?_
  · intro acc installed e he
    cases hsrc : installed.source with
    | none =>
      rw [hsrc] at he
      exact Or.inl he
    | some src =>
      rw [hsrc] at he
      dsimp only at he
      cases hres : resolve src with
      | none =>
        rw [hres] at he
        exact Or.inl he
      | some skills =>
        rw [hres] at he
        dsimp only at he
        cases hfind : skills.find? (fun s => s.name = installed.name) with
        | none =>
          rw [hfind] at he
          exact Or.inl he
        | some remote =>
          rw [hfind] at he
          dsimp only at he
          rcases List.mem_append.mp he with h | h
          · exact Or.inl h
          · right
            have he2 := List.mem_singleton.mp h
            subst he2
            cases hv : remote.version with
            | none => simp [Marketplace.truthyVersion, hv]
            | some v =>
              by_cases hve : v = ""
              · subst hve
                simp [Marketplace.truthyVersion, hv]
              · simp [Marketplace.truthyVersion, hv, hve]
  · intro y hy
    cases hy

/-- C3 witness: the amended rule evaluated at the concrete entry
`checkUpdates` produces for installed `"1.0"` vs remote `"1.1"`. -/
theorem C3_hasUpdate_iff_witness :
    ({ skill := exInstalled (some "1.0"), currentVersion := some "1.0",
       latestVersion := some "1.1", hasUpdate := true } : Marketplace.UpdateEntry).hasUpdate = true ↔
      ((some "1.1" : Option String) ≠ some "1.0" ∧
       ∃ v, (some "1.1" : Option String) = some v ∧ v ≠ "") :=
  C3_hasUpdate_iff (.parsed (exConfigInstalled (some "1.0")))
    (fun _ => some [exRemote (some "1.1")])
    { skill := exInstalled (some "1.0"), currentVersion := some "1.0",
      latestVersion := some "1.1", hasUpdate := true } (by decide)

/-- C4 counterexample: for the aggregator resolver `fetchSkillsMP`, two
calls with the same cache key within the TTL window do *not* return
identical results: the first (cold) call resolves with the response's
pagination (`total = 40000, hasNext = true`), while the second call,
served from the cache 1000 ms later, resolves with `total = 0` and
`hasNext = false`. -/
theorem C4_counterexample :
    (1000 : Int) - 0 < SkillsMP.CACHE_TTL ∧
    (SkillsMP.fetchSkillsMP (fun _ => none) 0 {}
        (.ok { skills := [], total := 40000, hasNext := true })).result =
      .ok { skills := [], total := 40000, hasNext := true } ∧
    (SkillsMP.fetchSkillsMP
        (SkillsMP.fetchSkillsMP (fun _ => none) 0 {}
          (.ok { skills := [], total := 40000, hasNext := true })).cache 1000 {}
        (.ok { skills := [], total := 40000, hasNext := true })).result =
      .ok { skills := [], total := 0, hasNext := false } ∧
    ¬ ((SkillsMP.MPResult.mk [] 40000 true) = (SkillsMP.MPResult.mk [] 0 false)) :=
  ⟨by decide, rfl, rfl, by decide⟩

/-- C4 (amended): for the GitHub-source resolver, two calls with the same
cache key within the TTL window return the identical skill list and issue
exactly one network fetch, provided the first call starts cold and its
fetch succeeds; and a cache entry older than the TTL is not served: the
lookup refetches and overwrites the entry with the fresh result.  (For
the aggregator resolver the cached call returns the identical skill list
but zeroed pagination, per the counterexample.) -/
theorem C4_cache_ttl (source : MarketplaceSource) :
    (∀ (cache : String → Option Marketplace.CacheEntry) (t0 t1 : Int)
        (s : List MarketplaceSkill) (net2 : Except Unit (List MarketplaceSkill)),
      cache (Marketplace.cacheKey source) = none →
      t1 - t0 < Marketplace.CACHE_TTL →
      (Marketplace.fetchSkillsFromSource cache t0 source (.ok s)).result = .ok s ∧
      (Marketplace.fetchSkillsFromSource cache t0 source (.ok s)).fetched = true ∧
      (Marketplace.fetchSkillsFromSource
          (Marketplace.fetchSkillsFromSource cache t0 source (.ok s)).cache t1 source net2).result =
        .ok s ∧
      (Marketplace.fetchSkillsFromSource
          (Marketplace.fetchSkillsFromSource cache t0 source (.ok s)).cache t1 source net2).fetched =
        false) ∧
    (∀ (cache : String → Option Marketplace.CacheEntry) (now : Int)
        (entry : Marketplace.CacheEntry) (s : List MarketplaceSkill),
      cache (Marketplace.cacheKey source) = some entry →
      Marketplace.CACHE_TTL ≤ now - entry.timestamp →
      (Marketplace.fetchSkillsFromSource cache now source (.ok s)).result = .ok s ∧
      (Marketplace.fetchSkillsFromSource cache now source (.ok s)).fetched = true ∧
      (Marketplace.fetchSkillsFromSource cache now source (.ok s)).cache
          (Marketplace.cacheKey source) =
        some { skills := s, timestamp := now }) := by
  constructor
  · intro cache t0 t1 s net2 hnone httl
    have h1 : Marketplace.fetchSkillsFromSource cache t0 source (.ok s) =
        { result := .ok s
          cache := fun k => if k = Marketplace.cacheKey source then
            some { skills := s, timestamp := t0 } else cache k
          fetched := true } := by
      simp only [Marketplace.fetchSkillsFromSource]
      rw [hnone]
    rw [h1]
    refine ⟨rfl, rfl, ?_, ?_⟩ <;>
      simp [Marketplace.fetchSkillsFromSource, httl]
  · intro cache now entry s hentry hstale
    have hcond : ¬ (now - entry.timestamp < Marketplace.CACHE_TTL) := by omega
    simp only [Marketplace.fetchSkillsFromSource]
    rw [hentry]
    dsimp only
    rw [if_neg hcond]
    exact ⟨rfl, rfl, if_pos rfl⟩

/-- C4 witness: `C4_cache_ttl` evaluated on `exSource`: a cold first call
at time 0 followed by a call at time 1000 (with a network outcome that
would differ), and a stale entry from time 0 looked up at the TTL bound. -/
theorem C4_cache_ttl_witness :
    ((Marketplace.fetchSkillsFromSource (fun _ => none) 0 exSource (.ok [])).result = .ok [] ∧
     (Marketplace.fetchSkillsFromSource (fun _ => none) 0 exSource (.ok [])).fetched = true ∧
     (Marketplace.fetchSkillsFromSource
         (Marketplace.fetchSkillsFromSource (fun _ => none) 0 exSource (.ok [])).cache
         1000 exSource (.ok [exSkill])).result = .ok [] ∧
     (Marketplace.fetchSkillsFromSource
         (Marketplace.fetchSkillsFromSource (fun _ => none) 0 exSource (.ok [])).cache
         1000 exSource (.ok [exSkill])).fetched = false) ∧
    ((Marketplace.fetchSkillsFromSource
        (fun _ => some { skills := [exSkill], timestamp := 0 }) 300000 exSource
        (.ok [])).result = .ok [] ∧
     (Marketplace.fetchSkillsFromSource
        (fun _ => some { skills := [exSkill], timestamp := 0 }) 300000 exSource
        (.ok [])).fetched = true ∧
     (Marketplace.fetchSkillsFromSource
        (fun _ => some { skills := [exSkill], timestamp := 0 }) 300000 exSource
        (.ok [])).cache (Marketplace.cacheKey exSource) =
       some { skills := [], timestamp := 300000 }) :=
  ⟨(C4_cache_ttl exSource).1 (fun _ => none) 0 1000 [] (.ok [exSkill]) rfl (by decide),
   (C4_cache_ttl exSource).2 (fun _ => some { skills := [exSkill], timestamp := 0 }) 300000
     { skills := [exSkill], timestamp := 0 } [] rfl (by decide)⟩

/-- The success shape of `installSkill`: when the skill resolves, is not
already installed, the download promotes content `content`, and the
promoted metadata either is absent (`null`) or validates, the entry is
recorded and the config saved. -/
theorem installSkill_success (st : Marketplace.FsState) (skillName : String)
    (allSkills : List MarketplaceSkill) (skill : MarketplaceSkill)
    (content : Marketplace.DirContent) (now : String)
    (hfind : allSkills.find? (fun s => s.name = skillName) = some skill)
    (hnot : (Marketplace.loadConfig st.manifest).installed.find?
        (fun i => i.name = skillName) = none)
    (hload : ∃ mo, Loader.loadSkillMetadata content = .ok mo)
    (hmeta : ∀ m, Loader.loadSkillMetadata content = .ok (some m) →
      (Marketplace.validateLoaded m).valid = true) :
    Marketplace.installSkill st skillName allSkills (.ok content) now =
      { state :=
          { manifest := .parsed
              { Marketplace.loadConfig st.manifest with
                installed := (Marketplace.loadConfig st.manifest).installed ++
                  [{ name := skillName
                     localPath := (Marketplace.loadConfig st.manifest).installDir ++ "/" ++ skillName
                     source := some skill.source
                     remotePath := some skill.path
                     version := skill.version
                     installedAt := now }] }
            dirs := fun p =>
              if p = (Marketplace.loadConfig st.manifest).installDir ++ "/" ++ skillName
              then some content else st.dirs p }
        result := .ok
          { name := skillName
            localPath := (Marketplace.loadConfig st.manifest).installDir ++ "/" ++ skillName
            source := some skill.source
            remotePath := some skill.path
            version := skill.version
            installedAt := now } } := by
  rcases hload with ⟨mo, hmo⟩
  simp only [Marketplace.installSkill]
  rw [hfind]
  dsimp only
  rw [hnot]
  dsimp only
  rw [hmo]
  cases mo with
  | none => rfl
  | some m =>
    dsimp only
    rw [if_pos (hmeta m hmo)]

/-- C9: when the promoted copy of a resolvable, not-yet-installed skill
contains no SKILL.md (so metadata loading yields `null`), `installSkill`
still succeeds: it returns the new entry, appends it to the manifest, and
leaves the promoted directory (with no instruction document) on disk. -/
theorem C9_missing_skillmd_installs (st : Marketplace.FsState) (skillName : String)
    (allSkills : List MarketplaceSkill) (skill : MarketplaceSkill) (now : String)
    (hfind : allSkills.find? (fun s => s.name = skillName) = some skill)
    (hnot : (Marketplace.loadConfig st.manifest).installed.find?
        (fun i => i.name = skillName) = none) :
    (Marketplace.installSkill st skillName allSkills (.ok none) now).result =
      .ok { name := skillName
            localPath := (Marketplace.loadConfig st.manifest).installDir ++ "/" ++ skillName
            source := some skill.source
            remotePath := some skill.path
            version := skill.version
            installedAt := now } ∧
    (Marketplace.loadConfig
        (Marketplace.installSkill st skillName allSkills (.ok none) now).state.manifest).installed =
      (Marketplace.loadConfig st.manifest).installed ++
        [{ name := skillName
           localPath := (Marketplace.loadConfig st.manifest).installDir ++ "/" ++ skillName
           source := some skill.source
           remotePath := some skill.path
           version := skill.version
           installedAt := now }] ∧
    (Marketplace.installSkill st skillName allSkills (.ok none) now).state.dirs
      ((Marketplace.loadConfig st.manifest).installDir ++ "/" ++ skillName) = some none := by
  have h := installSkill_success st skillName allSkills skill none now hfind hnot
    ⟨none, rfl⟩ (fun m hm => by cases hm)
  rw [h]
  refine ⟨rfl, rfl, ?_⟩
  simp

/-- C9 witness: installing `pdf` from a promoted copy with no SKILL.md
succeeds and records the manifest entry. -/
theorem C9_missing_skillmd_installs_witness :
    (Marketplace.installSkill exState "pdf" [exSkill] (.ok none) "t").result =
      .ok { name := "pdf", localPath := "/skills/pdf", source := some exSource
            remotePath := some "skills/pdf", version := some "1.1", installedAt := "t" } ∧
    (Marketplace.installSkill exState "pdf" [exSkill] (.ok none) "t").state.dirs "/skills/pdf" =
      some none :=
  ⟨(C9_missing_skillmd_installs exState "pdf" [exSkill] exSkill "t" (by decide) (by decide)).1,
   (C9_missing_skillmd_installs exState "pdf" [exSkill] exSkill "t" (by decide) (by decide)).2.2⟩

/-- C1 counterexample: the promoted copy's SKILL.md has a description but
no `name`, so its metadata fails `validateMetadata` (name is required);
`installSkill` fails, and the manifest stays clean — but the promoted
install directory still exists afterwards, because `loadSkillMetadata`
throws before the validation/rollback branch is reached. -/
theorem C1_counterexample :
    (Validator.validateMetadata { name := none, description := some exDescription }).valid = false ∧
    (∃ e, (Marketplace.installSkill exState "pdf" [exSkill]
        (.ok (some { description := some exDescription })) "t").result = .error e) ∧
    (Marketplace.installSkill exState "pdf" [exSkill]
        (.ok (some { description := some exDescription })) "t").state.dirs "/skills/pdf" =
      some (some { description := some exDescription }) ∧
    (Marketplace.loadConfig (Marketplace.installSkill exState "pdf" [exSkill]
        (.ok (some { description := some exDescription })) "t").state.manifest).installed = [] :=
  ⟨by decide, ⟨_, rfl⟩, rfl, rfl⟩

/-- C1 (amended): when the promoted copy's SKILL.md *loads* (name and
description present and non-empty) and fails `validateMetadata`,
`installSkill` deletes the promoted install directory, fails, changes no
other directory, and leaves the persisted manifest untouched (so it has
no entry for the name).  (When the promoted SKILL.md is present but
missing a required field, the load throws first and the directory is
left behind — see the counterexample.) -/
theorem C1_validation_rollback (st : Marketplace.FsState) (skillName : String)
    (allSkills : List MarketplaceSkill) (skill : MarketplaceSkill)
    (data : Loader.FrontmatterData) (m : Loader.LoadedMetadata) (now : String)
    (hfind : allSkills.find? (fun s => s.name = skillName) = some skill)
    (hnot : (Marketplace.loadConfig st.manifest).installed.find?
        (fun i => i.name = skillName) = none)
    (hload : Loader.loadSkillMetadata (some data) = .ok (some m))
    (hinvalid : (Marketplace.validateLoaded m).valid = false) :
    (∃ e, (Marketplace.installSkill st skillName allSkills (.ok (some data)) now).result =
      .error e) ∧
    (Marketplace.installSkill st skillName allSkills (.ok (some data)) now).state.dirs
      ((Marketplace.loadConfig st.manifest).installDir ++ "/" ++ skillName) = none ∧
    (∀ p, p ≠ (Marketplace.loadConfig st.manifest).installDir ++ "/" ++ skillName →
      (Marketplace.installSkill st skillName allSkills (.ok (some data)) now).state.dirs p =
        st.dirs p) ∧
    (Marketplace.installSkill st skillName allSkills (.ok (some data)) now).state.manifest =
      st.manifest := by
  simp only [Marketplace.installSkill]
  rw [hfind]
  dsimp only
  rw [hnot]
  dsimp only
  rw [hload]
  dsimp only
  rw [if_neg (by simp [hinvalid])]
  refine ⟨⟨_, rfl⟩, ?_, ?_, rfl⟩
  · simp
  · intro p hp
    simp [hp]

/-- C1 witness: a promoted copy whose SKILL.md loads with the reserved
name `"claude"` fails validation; the rollback leaves no directory and an
untouched manifest. -/
theorem C1_validation_rollback_witness :
    (∃ e, (Marketplace.installSkill exState "pdf" [exSkill]
        (.ok (some { name := some "claude", description := some exDescription })) "t").result =
      .error e) ∧
    (Marketplace.installSkill exState "pdf" [exSkill]
        (.ok (some { name := some "claude", description := some exDescription })) "t").state.dirs
      "/skills/pdf" = none ∧
    (Marketplace.installSkill exState "pdf" [exSkill]
        (.ok (some { name := some "claude", description := some exDescription })) "t").state.manifest =
      exState.manifest :=
  ⟨(C1_validation_rollback exState "pdf" [exSkill] exSkill
      { name := some "claude", description := some exDescription }
      { name := "claude", description := exDescription } "t"
      (by decide) (by decide) rfl (by decide)).1,
   (C1_validation_rollback exState "pdf" [exSkill] exSkill
      { name := some "claude", description := some exDescription }
      { name := "claude", description := exDescription } "t"
      (by decide) (by decide) rfl (by decide)).2.1,
   (C1_validation_rollback exState "pdf" [exSkill] exSkill
      { name := some "claude", description := some exDescription }
      { name := "claude", description := exDescription } "t"
      (by decide) (by decide) rfl (by decide)).2.2.2⟩

theorem loadConfig_parsed_installed (cfg : MarketplaceConfig) :
    (Marketplace.loadConfig (.parsed cfg)).installed = cfg.installed := rfl

theorem removeFirstBy_append_singleton {α : Type} {p : α → Bool} {l : List α} {x : α}
    (hl : ∀ y ∈ l, p y = false) (hx : p x = true) :
    removeFirstBy p (l ++ [x]) = some (x, l) := by
  induction l with
  | nil => simp [removeFirstBy, hx]
  | cons a as ih =>
    simp only [List.cons_append, removeFirstBy, List.append_eq]
    rw [if_neg (by simp [hl a (List.mem_cons_self a as)]),
      ih (fun y hy => hl y (List.mem_cons_of_mem a hy))]

/-- C6: a successful `installSkill(name)` followed by
`uninstallSkill(name)` restores the pre-install state: the uninstall
succeeds, the manifest has no entry for the name, and the install
directory for the name is absent.  Moreover `uninstallSkill`'s directory
removal is idempotent: on any state whose manifest carries an entry for
the name, the uninstall succeeds even when the recorded directory is
already absent, and the directory stays absent. -/
theorem C6_install_uninstall_roundtrip (st : Marketplace.FsState) (skillName : String)
    (allSkills : List MarketplaceSkill) (download : Except Unit Marketplace.DirContent)
    (now : String) (e : InstalledSkill)
    (hsucc : (Marketplace.installSkill st skillName allSkills download now).result = .ok e) :
    ((Marketplace.uninstallSkill
        (Marketplace.installSkill st skillName allSkills download now).state skillName).2 =
      .ok ()) ∧
    ((Marketplace.loadConfig (Marketplace.uninstallSkill
        (Marketplace.installSkill st skillName allSkills download now).state
        skillName).1.manifest).installed.find? (fun i => i.name = skillName) = none) ∧
    ((Marketplace.uninstallSkill
        (Marketplace.installSkill st skillName allSkills download now).state skillName).1.dirs
      ((Marketplace.loadConfig st.manifest).installDir ++ "/" ++ skillName) = none) ∧
    (∀ (st2 : Marketplace.FsState) (ent : InstalledSkill) (rest : List InstalledSkill),
      removeFirstBy (fun i => i.name = skillName)
          (Marketplace.loadConfig st2.manifest).installed = some (ent, rest) →
      st2.dirs ent.localPath = none →
      (Marketplace.uninstallSkill st2 skillName).2 = .ok () ∧
      (Marketplace.uninstallSkill st2 skillName).1.dirs ent.localPath = none) := by
  obtain ⟨skill, hfind⟩ : ∃ skill, allSkills.find? (fun s => s.name = skillName) = some skill := by
    cases h : allSkills.find? (fun s => s.name = skillName) with
    | none => simp [Marketplace.installSkill, h] at hsucc
    | some skill => exact ⟨skill, rfl⟩
  have hnot : (Marketplace.loadConfig st.manifest).installed.find?
      (fun i => i.name = skillName) = none := by
    cases h : (Marketplace.loadConfig st.manifest).installed.find?
        (fun i => i.name = skillName) with
    | none => rfl
    | some ex => simp [Marketplace.installSkill, hfind, h] at hsucc
  obtain ⟨content, rfl⟩ : ∃ c, download = .ok c := by
    cases download with
    | error u => simp [Marketplace.installSkill, hfind, hnot] at hsucc
    | ok c => exact ⟨c, rfl⟩
  obtain ⟨mo, hmo⟩ : ∃ mo, Loader.loadSkillMetadata content = .ok mo := by
    cases h : Loader.loadSkillMetadata content with
    | error msg => simp [Marketplace.installSkill, hfind, hnot, h] at hsucc
    | ok mo => exact ⟨mo, rfl⟩
  have hmeta : ∀ m, Loader.loadSkillMetadata content = .ok (some m) →
      (Marketplace.validateLoaded m).valid = true := by
    intro m hm
    by_contra hv
    have hv' : (Marketplace.validateLoaded m).valid = false := by
      cases hb : (Marketplace.validateLoaded m).valid
      · rfl
      · exact absurd hb hv
    simp [Marketplace.installSkill, hfind, hnot, hm, hv'] at hsucc
  have hinst := installSkill_success st skillName allSkills skill content now hfind hnot
    ⟨mo, hmo⟩ hmeta
  have hl : ∀ y ∈ (Marketplace.loadConfig st.manifest).installed,
      (fun i => decide (i.name = skillName)) y = false := by
    intro y hy
    have := List.find?_eq_none.mp hnot y hy
    simpa using this
  have hrm := removeFirstBy_append_singleton (x :=
      { name := skillName
        localPath := (Marketplace.loadConfig st.manifest).installDir ++ "/" ++ skillName
        source := some skill.source
        remotePath := some skill.path
        version := skill.version
        installedAt := now }) hl (by simp)
  rw [hinst]
  refine ⟨?_, ?_, ?_, ?_⟩
  · simp only [Marketplace.uninstallSkill, loadConfig_parsed_installed]
    rw [hrm]
  · simp only [Marketplace.uninstallSkill, loadConfig_parsed_installed]
    rw [hrm]
    exact hnot
  · simp only [Marketplace.uninstallSkill, loadConfig_parsed_installed]
    rw [hrm]
    simp
  · intro st2 ent rest hrm2 habs
    refine ⟨?_, ?_⟩
    · simp only [Marketplace.uninstallSkill]
      rw [hrm2]
    · simp only [Marketplace.uninstallSkill]
      rw [hrm2]
      simp [habs]

/-- C6 witness: the round trip evaluated on the concrete state `exState`:
install `pdf` (with a valid promoted SKILL.md), then uninstall it. -/
theorem C6_install_uninstall_roundtrip_witness :
    ((Marketplace.uninstallSkill
        (Marketplace.installSkill exState "pdf" [exSkill]
          (.ok (some { name := some "pdf", description := some exDescription })) "t").state
        "pdf").2 = .ok ()) ∧
    ((Marketplace.loadConfig (Marketplace.uninstallSkill
        (Marketplace.installSkill exState "pdf" [exSkill]
          (.ok (some { name := some "pdf", description := some exDescription })) "t").state
        "pdf").1.manifest).installed.find? (fun i => i.name = "pdf") = none) ∧
    ((Marketplace.uninstallSkill
        (Marketplace.installSkill exState "pdf" [exSkill]
          (.ok (some { name := some "pdf", description := some exDescription })) "t").state
        "pdf").1.dirs "/skills/pdf" = none) :=
  ⟨(C6_install_uninstall_roundtrip exState "pdf" [exSkill]
      (.ok (some { name := some "pdf", description := some exDescription })) "t"
      { name := "pdf", localPath := "/skills/pdf", source := some exSource
        remotePath := some "skills/pdf", version := some "1.1", installedAt := "t" } rfl).1,
   (C6_install_uninstall_roundtrip exState "pdf" [exSkill]
      (.ok (some { name := some "pdf", description := some exDescription })) "t"
      { name := "pdf", localPath := "/skills/pdf", source := some exSource
        remotePath := some "skills/pdf", version := some "1.1", installedAt := "t" } rfl).2.1,
   (C6_install_uninstall_roundtrip exState "pdf" [exSkill]
      (.ok (some { name := some "pdf", description := some exDescription })) "t"
      { name := "pdf", localPath := "/skills/pdf", source := some exSource
        remotePath := some "skills/pdf", version := some "1.1", installedAt := "t" } rfl).2.2.1⟩

/-- C10: `installFromGitHubUrl` never touches the persisted marketplace
config (manifest and installed list unchanged, `uninstallSkill` outcomes
and `checkUpdates` results identical before and after), and its only
filesystem write is the fetched SKILL.md under
`installDir/<last URL path segment>`. -/
theorem C10_installFromGitHubUrl_frame (st : Marketplace.FsState) (url dir : String)
    (fetched : Except Unit Loader.FrontmatterData) :
    ((SkillsMP.installFromGitHubUrl st url dir fetched).1.manifest = st.manifest) ∧
    ((Marketplace.loadConfig
        (SkillsMP.installFromGitHubUrl st url dir fetched).1.manifest).installed =
      (Marketplace.loadConfig st.manifest).installed) ∧
    (∀ p, p ≠ SkillsMP.destPathOf dir url →
      (SkillsMP.installFromGitHubUrl st url dir fetched).1.dirs p = st.dirs p) ∧
    (∀ d r, fetched = .ok d →
      (SkillsMP.installFromGitHubUrl st url dir fetched).2 = .ok r →
      (SkillsMP.installFromGitHubUrl st url dir fetched).1.dirs (SkillsMP.destPathOf dir url) =
        some (some d) ∧
      r = (SkillsMP.lastSegOr "skill" (SkillsMP.extractGitHubPath url),
           SkillsMP.destPathOf dir url)) ∧
    (∀ n, (Marketplace.uninstallSkill (SkillsMP.installFromGitHubUrl st url dir fetched).1 n).2 =
      (Marketplace.uninstallSkill st n).2) ∧
    (∀ resolve, Marketplace.checkUpdates
        (SkillsMP.installFromGitHubUrl st url dir fetched).1.manifest resolve =
      Marketplace.checkUpdates st.manifest resolve) := by
  have hmanifest : (SkillsMP.installFromGitHubUrl st url dir fetched).1.manifest = st.manifest := by
    simp only [SkillsMP.installFromGitHubUrl]
    by_cases hbad : (SkillsMP.extractOwner url = "" || SkillsMP.extractRepoName url = ""
        || SkillsMP.extractGitHubPath url = "") = true
    · rw [if_pos hbad]
    · rw [if_neg hbad]
      cases fetched with
      | error u => rfl
      | ok d => rfl
  refine ⟨hmanifest, by rw [hmanifest], ?_, ?_, ?_, ?_⟩
  · intro p hp
    simp only [SkillsMP.installFromGitHubUrl]
    by_cases hbad : (SkillsMP.extractOwner url = "" || SkillsMP.extractRepoName url = ""
        || SkillsMP.extractGitHubPath url = "") = true
    · rw [if_pos hbad]
    · rw [if_neg hbad]
      cases fetched with
      | error u => rfl
      | ok d =>
        dsimp only
        simp only [SkillsMP.destPathOf] at hp
        rw [if_neg hp]
  · intro d r hd hr
    subst hd
    simp only [SkillsMP.installFromGitHubUrl] at hr ⊢
    by_cases hbad : (SkillsMP.extractOwner url = "" || SkillsMP.extractRepoName url = ""
        || SkillsMP.extractGitHubPath url = "") = true
    · rw [if_pos hbad] at hr
      exact absurd hr (by simp)
    · rw [if_neg hbad] at hr ⊢
      dsimp only at hr ⊢
      refine ⟨by simp [SkillsMP.destPathOf], ?_⟩
      exact (Except.ok.inj hr).symm
  · intro n
    simp only [Marketplace.uninstallSkill, hmanifest]
    cases removeFirstBy (fun i => i.name = n)
        (Marketplace.loadConfig st.manifest).installed with
    | none => rfl
    | some pr =>
      obtain ⟨a, b⟩ := pr
      rfl
  · intro resolve
    rw [hmanifest]

/-- C10 witness: the frame facts evaluated for a concrete GitHub tree URL
installed into `/i`: the manifest stays `exConfig`, an unrelated path is
untouched, the SKILL.md lands at `/i/pdf`, and uninstalling a name that
was never recorded still fails. -/
theorem C10_installFromGitHubUrl_frame_witness :
    ((SkillsMP.installFromGitHubUrl exState
        "https://github.com/octo/skills/tree/main/skills/pdf" "/i"
        (.ok { name := some "pdf", description := some "d" })).1.manifest = exState.manifest) ∧
    ((SkillsMP.installFromGitHubUrl exState
        "https://github.com/octo/skills/tree/main/skills/pdf" "/i"
        (.ok { name := some "pdf", description := some "d" })).1.dirs "/other" =
      exState.dirs "/other") ∧
    ((SkillsMP.installFromGitHubUrl exState
        "https://github.com/octo/skills/tree/main/skills/pdf" "/i"
        (.ok { name := some "pdf", description := some "d" })).1.dirs "/i/pdf" =
      some (some { name := some "pdf", description := some "d" })) ∧
    ((Marketplace.uninstallSkill (SkillsMP.installFromGitHubUrl exState
        "https://github.com/octo/skills/tree/main/skills/pdf" "/i"
        (.ok { name := some "pdf", description := some "d" })).1 "pdf").2 =
      (Marketplace.uninstallSkill exState "pdf").2) :=
  ⟨(C10_installFromGitHubUrl_frame exState
      "https://github.com/octo/skills/tree/main/skills/pdf" "/i"
      (.ok { name := some "pdf", description := some "d" })).1,
   (C10_installFromGitHubUrl_frame exState
      "https://github.com/octo/skills/tree/main/skills/pdf" "/i"
      (.ok { name := some "pdf", description := some "d" })).2.2.1 "/other" (by decide),
   ((C10_installFromGitHubUrl_frame exState
      "https://github.com/octo/skills/tree/main/skills/pdf" "/i"
      (.ok { name := some "pdf", description := some "d" })).2.2.2.1
      { name := some "pdf", description := some "d" } ("pdf", "/i/pdf") rfl rfl).1,
   (C10_installFromGitHubUrl_frame exState
      "https://github.com/octo/skills/tree/main/skills/pdf" "/i"
      (.ok { name := some "pdf", description := some "d" })).2.2.2.2.1 "pdf"⟩

end AgentSkills
